import Mathlib

/-!
# Verification of the bespoke-fit parameter reconciliation engine

A shallow embedding of `openff/bespokefit/forcefield_tools.py` and
`openff/bespokefit/collection_workflows.py`, together with proofs of the
specification's testable properties.

The force-field handle is modelled, per its contract, as four ordered
collections of parameter records (one per SMIRKS type), each keyed by the
record's `smirks` string.  The smirks-parameter schema family
(`schema/smirks.py`) is not part of the sources; its capability surface
(equality, `to_off_smirks`, `update_parameters`) is modelled from the
specification where noted.
-/

namespace BespokeFit

/-- The `SmirksType` enum: the four parameter-handler types. -/
inductive SmirksType where
  | Bonds
  | Angles
  | ProperTorsions
  | Vdw
  deriving DecidableEq, Repr

/-- The `_smirks_ids` table in `add_smirks`: the id prefix letter per type. -/
def smirksId : SmirksType → String
  | .Bonds => "b"
  | .Angles => "a"
  | .ProperTorsions => "t"
  | .Vdw => "n"

/-- Decimal digit character, as produced by python's `str` on a digit. -/
def digitChar (d : Nat) : Char :=
  match d with
  | 0 => '0' | 1 => '1' | 2 => '2' | 3 => '3' | 4 => '4'
  | 5 => '5' | 6 => '6' | 7 => '7' | 8 => '8' | _ => '9'

/-- Numeric value of a decimal digit character. -/
def digitVal (c : Char) : Nat := c.toNat - 48

/-- Decimal digit list of a natural number, with an explicit bound on the
recursion depth (structural in the bound), most significant digit first. -/
def natDecAux : Nat → Nat → List Char
  | 0, n => [digitChar n]
  | fuel + 1, n =>
    if n < 10 then [digitChar n]
    else natDecAux fuel (n / 10) ++ [digitChar (n % 10)]

/-- Decimal digit list of a natural number, most significant digit first:
the embedding of python's `str` on a non-negative integer (the digit loop
recurses at most `n` times, so `n` itself bounds the depth). -/
def natDec (n : Nat) : List Char := natDecAux n n

/-- The embedding of python's `str` on a non-negative integer, as a string. -/
def natStr (n : Nat) : String := ⟨natDec n⟩

/-- Decimal decoding with an accumulator (left fold over digits). -/
def decAux (a : Nat) (cs : List Char) : Nat :=
  cs.foldl (fun x c => x * 10 + digitVal c) a


/-- A value field of a parameter: an opaque (field-name, value) pair; the
value payload is opaque to the reconciliation engine. -/
abbrev ValueFields := List (String × Int)

/-- The serialized ("off") form of a smirks parameter as produced by
`to_off_smirks`, before an id is chosen: the smirks key, the value fields,
and whether the "parameterize" marker field is present. -/
structure OffData where
  smirks : String
  values : ValueFields
  parameterize : Bool
  deriving DecidableEq, Repr

/-- A parameter record stored inside a parameter handler: a stable `id`,
the `smirks` key, and the value fields (with the optional "parameterize"
marker). -/
structure ParamRecord where
  id : String
  smirks : String
  values : ValueFields
  parameterize : Bool
  deriving DecidableEq, Repr

/-- A typed smirks parameter (the AtomSmirks / BondSmirks / AngleSmirks /
TorsionSmirks family): its handler type, smirks pattern string, the set of
atom-index tuples it covers, and its value fields. -/
structure Smirk where
  type : SmirksType
  smirks : String
  atoms : List (List Nat)
  values : ValueFields
  deriving DecidableEq, Repr

/-- Modelled from the spec: equality of smirks parameters, used for
deduplication (`schema/smirks.py` is absent from the sources).  "Two
parameters of the same type are equal if their `smirks` pattern matches
(used for deduplication), regardless of `atoms` contents." -/
def smirkEq (a b : Smirk) : Bool :=
  a.type == b.type && a.smirks == b.smirks

/-- Modelled from the spec: `to_off_smirks` serializes a parameter to the
handler's native field format, including the "parameterize" marker field
(`schema/smirks.py` is absent from the sources). -/
def to_off_smirks (s : Smirk) : OffData :=
  { smirks := s.smirks, values := s.values, parameterize := true }

/-- `del smirk_data["parameterize"]` when the `parameterize` flag is false. -/
def stripFlag (d : OffData) (parameterize : Bool) : OffData :=
  if parameterize then d else { d with parameterize := false }

/-- The force field state: one ordered parameter-handler collection per
smirks type (the handle's contract: an ordered mapping keyed by smirks). -/
structure ForceFieldState where
  bonds : List ParamRecord
  angles : List ParamRecord
  properTorsions : List ParamRecord
  vdw : List ParamRecord
  deriving DecidableEq, Repr

/-- `get_parameter_handler(type).parameters`: the handler collection of a
given type. -/
def getHandler (ff : ForceFieldState) : SmirksType → List ParamRecord
  | .Bonds => ff.bonds
  | .Angles => ff.angles
  | .ProperTorsions => ff.properTorsions
  | .Vdw => ff.vdw

/-- Replace the handler collection of a given type. -/
def setHandler (ff : ForceFieldState) (t : SmirksType) (h : List ParamRecord) :
    ForceFieldState :=
  match t with
  | .Bonds => { ff with bonds := h }
  | .Angles => { ff with angles := h }
  | .ProperTorsions => { ff with properTorsions := h }
  | .Vdw => { ff with vdw := h }

/-- `current_params[parameter.smirks]`: lookup of a record by its smirks
key (first match in the ordered collection). -/
def findRec (h : List ParamRecord) (key : String) : Option ParamRecord :=
  h.find? (fun r => r.smirks == key)

/-- Build the record written into the handler from an id and the serialized
data (`smirk_data` with `smirk_data["id"]` set). -/
def recordWithId (id : String) (d : OffData) : ParamRecord :=
  { id := id, smirks := d.smirks, values := d.values, parameterize := d.parameterize }

/-- In-place update path of `add_smirks`: replace the first record whose
smirks matches `key` by the new serialized data, preserving the record's
stable `id` (the `current_param.__init__(**smirk_data)` overwrite).
Returns `none` when no record has this key (the `KeyError` branch). -/
def updateFirst (cur : List ParamRecord) (key : String) (d : OffData) :
    Option (List ParamRecord) :=
  match cur with
  | [] => none
  | r :: rs =>
    if r.smirks == key then some (recordWithId r.id d :: rs)
    else (updateFirst rs key d).map (r :: ·)

/-- One step of the input-deduplication loop of `add_smirks`: a parameter of
type `t` is appended to the bucket unless an equal one (under
smirks-parameter equality) was already kept (`if smirk not in
new_params[smirk.type.value]`). -/
def bucketStep (t : SmirksType) (acc : List Smirk) (s : Smirk) : List Smirk :=
  if s.type == t then
    if acc.any (fun x => smirkEq x s) then acc else acc ++ [s]
  else acc

/-- The per-type deduplication step of `add_smirks` (building
`new_params[type]`): keep, in first-seen order, the parameters of type `t`
that are not equal (under smirks-parameter equality) to one already kept. -/
def dedupBucket (t : SmirksType) (smirks : List Smirk) : List Smirk :=
  smirks.foldl (bucketStep t) []

/-- The per-type write loop of `add_smirks` (`for i, parameter in
enumerate(parameters, start=2)`): `n` is the handler size recorded before
any appends, `i` the enumeration counter.  An existing key is overwritten
in place keeping its id; a new key is appended with id
`<type-prefix><n + i>`. -/
def processParams (t : SmirksType) (parameterize : Bool) (n : Nat) :
    List Smirk → Nat → List ParamRecord → List ParamRecord
  | [], _, cur => cur
  | p :: rest, i, cur =>
    let d := stripFlag (to_off_smirks p) parameterize
    let cur' :=
      match updateFirst cur p.smirks d with
      | some updated => updated
      | none => cur ++ [recordWithId (smirksId t ++ natStr (n + i)) d]
    processParams t parameterize n rest (i + 1) cur'

/-- The records appended by the write loop when every parameter of the list
is new: each parameter's serialized data under the id
`<type-prefix><n + i>`, with `i` counting up from the starting counter. -/
def newRecords (t : SmirksType) (parameterize : Bool) (n : Nat) :
    Nat → List Smirk → List ParamRecord
  | _, [] => []
  | i, p :: rest =>
    recordWithId (smirksId t ++ natStr (n + i)) (stripFlag (to_off_smirks p) parameterize)
      :: newRecords t parameterize n (i + 1) rest

/-- One type's worth of `add_smirks`: dedupe the input for this type, read
the handler size once, then run the write loop starting at counter 2. -/
def addSmirksForType (t : SmirksType) (smirks : List Smirk) (parameterize : Bool)
    (h : List ParamRecord) : List ParamRecord :=
  processParams t parameterize h.length (dedupBucket t smirks) 2 h

/-- `ForceFieldEditor.add_smirks`: dedupe the input by type and equality,
then merge each type's unique parameters into its handler.  The per-type
handlers are disjoint, so iterating the four types in a fixed order is
state-equivalent to iterating `new_params.items()`. -/
def add_smirks (ff : ForceFieldState) (smirks : List Smirk)
    (parameterize : Bool) : ForceFieldState :=
  { bonds := addSmirksForType .Bonds smirks parameterize ff.bonds
    angles := addSmirksForType .Angles smirks parameterize ff.angles
    properTorsions := addSmirksForType .ProperTorsions smirks parameterize ff.properTorsions
    vdw := addSmirksForType .Vdw smirks parameterize ff.vdw }

/-- Number of records carrying a given smirks key in a handler collection. -/
def countKey (h : List ParamRecord) (k : String) : Nat :=
  (h.filter (fun r => r.smirks == k)).length

/-- Iterate `add_smirks` over a sequence of calls (each a batch together
with its `parameterize` flag). -/
def applyCalls (ff : ForceFieldState) (calls : List (List Smirk × Bool)) :
    ForceFieldState :=
  calls.foldl (fun f c => add_smirks f c.1 c.2) ff

/-- Errors surfaced by the reconciliation engine (exception-based signalling
in the python source, modelled as an explicit result type). -/
inductive FFError where
  | NotFound
  | AmbiguousClusterError
  | KeyError
  | UnsupportedArity
  deriving DecidableEq, Repr

/-- The result of labelling a molecule with the force field
(`label_molecule`): per parameter type, a mapping from atom-index tuple to
the governing parameter record.  Modelled as an association list, as the
labelling itself is performed by the external force-field handle. -/
abbrev Labels := List (SmirksType × List Nat × ParamRecord)

/-- `labels[type.value][atom_ids]`: resolve the governing record of an atom
tuple, for a given parameter type. -/
def lookupLabel (labels : Labels) (t : SmirksType) (atoms : List Nat) :
    Option ParamRecord :=
  (labels.find? (fun e => e.1 == t && e.2.1 == atoms)).map (fun e => e.2.2)

/-- The `_atoms_to_params` table of `get_smirks_parameters`: parameter type
from atom-tuple arity; missing arities raise (`UnsupportedArity`). -/
def arityToType : Nat → Option SmirksType
  | 1 => some .Vdw
  | 2 => some .Bonds
  | 3 => some .Angles
  | 4 => some .ProperTorsions
  | _ => none

/-- Modelled from the spec: `smirks_from_off` converts a handler record into
the internal typed-parameter representation, with an initially empty `atoms`
set (`utils.smirks_from_off` is absent from the sources). -/
def smirks_from_off (t : SmirksType) (r : ParamRecord) : Smirk :=
  { type := t, smirks := r.smirks, atoms := [], values := r.values }

/-- `smirk.atoms.add(atom_ids)`: set insertion into the atoms set (the set
is modelled as a duplicate-free list in insertion order). -/
def addAtom (atoms : List (List Nat)) (a : List Nat) : List (List Nat) :=
  if atoms.contains a then atoms else atoms ++ [a]

/-- The `else` branch of the clustering loop: find the first entry of the
result list equal (under smirks-parameter equality) to `s` and add the atom
tuple to its atoms set; `none` when no entry is equal (`s not in smirks`). -/
def addAtomAt (l : List Smirk) (s : Smirk) (a : List Nat) : Option (List Smirk) :=
  match l with
  | [] => none
  | x :: xs =>
    if smirkEq x s then some ({ x with atoms := addAtom x.atoms a } :: xs)
    else (addAtomAt xs s a).map (x :: ·)

/-- The freshly converted parameter for one requested atom tuple:
`smirks_from_off` followed by `smirk.atoms.add(atom_ids)`. -/
def freshSmirk (t : SmirksType) (r : ParamRecord) (a : List Nat) : Smirk :=
  { smirks_from_off t r with atoms := addAtom [] a }

/-- The body of `get_smirks_parameters`, folding over the requested atom
tuples with the accumulated (clustered) result list. -/
def getSmirksLoop (labels : Labels) : List (List Nat) → List Smirk →
    Except FFError (List Smirk)
  | [], acc => .ok acc
  | a :: rest, acc =>
    match arityToType a.length with
    | none => .error .UnsupportedArity
    | some t =>
      match lookupLabel labels t a with
      | none => .error .KeyError
      | some r =>
        match addAtomAt acc (freshSmirk t r a) a with
        | some acc' => getSmirksLoop labels rest acc'
        | none => getSmirksLoop labels rest (acc ++ [freshSmirk t r a])

/-- `ForceFieldEditor.get_smirks_parameters`: label the molecule, then for
each requested atom tuple resolve its governing record, convert it, and
cluster equal parameters by accumulating their atom tuples. -/
def get_smirks_parameters (labels : Labels) (atoms : List (List Nat)) :
    Except FFError (List Smirk) :=
  getSmirksLoop labels atoms []

/-- The (type, smirks) key of a typed parameter: the identity under which
the clustering loop deduplicates its output. -/
def keyOf (s : Smirk) : SmirksType × String := (s.type, s.smirks)

/-- First-seen insertion of a key: appended only when not yet present. -/
def insertKey (ks : List (SmirksType × String)) (k : SmirksType × String) :
    List (SmirksType × String) :=
  if k ∈ ks then ks else ks ++ [k]

/-- The (type, smirks) key that one requested atom tuple resolves to under
a labelling (type from tuple arity, record from the label mapping). -/
def tupleKey (labels : Labels) (a : List Nat) : Option (SmirksType × String) :=
  match arityToType a.length with
  | none => none
  | some t =>
    match lookupLabel labels t a with
    | none => none
    | some r => some (t, r.smirks)

/-- The key sequence of the clustering loop: the resolved keys of the
requested tuples, deduplicated first-seen, in first-encounter order. -/
def keyTrace (labels : Labels) : List (List Nat) →
    List (SmirksType × String) → Option (List (SmirksType × String))
  | [], ks => some ks
  | a :: rest, ks =>
    match tupleKey labels a with
    | none => none
    | some k => keyTrace labels rest (insertKey ks k)

/-- Overwrite or insert one value field (by field name) in a value-field
list. -/
def setValue (vals : ValueFields) (kv : String × Int) : ValueFields :=
  match vals with
  | [] => [kv]
  | (k, v) :: rest => if k == kv.1 then kv :: rest else (k, v) :: setValue rest kv

/-- Overlay the record's value fields onto existing ones, field by field. -/
def overlayValues (old new : ValueFields) : ValueFields :=
  new.foldl setValue old

/-- Modelled from the spec: `update_parameters(off_smirk, clear_existing)`
overwrites the parameter's own value fields from the handler record,
resetting them first when `clear_existing` is true and overlaying otherwise;
`atoms`, `type` and `smirks` are untouched (`schema/smirks.py` is absent
from the sources). -/
def update_parameters (s : Smirk) (r : ParamRecord) (clear_existing : Bool) : Smirk :=
  { s with values := if clear_existing then r.values else overlayValues s.values r.values }

/-- `ForceFieldEditor.update_smirks_parameters`: walk the input parameters
in order; for each, look its smirks key up in the handler of its type
(`NotFound` stops the walk when the key is absent) and overwrite its value
fields from the current record.  Returns the final state of the input
objects together with the error, if any. -/
def update_smirks_parameters (ff : ForceFieldState) :
    List Smirk → List Smirk × Option FFError
  | [] => ([], none)
  | s :: rest =>
    match findRec (getHandler ff s.type) s.smirks with
    | none => (s :: rest, some .NotFound)
    | some r =>
      let result := update_smirks_parameters ff rest
      (update_parameters s r true :: result.1, result.2)

/-- The effect of `update_smirks_parameters` on one input parameter whose
key is found: overwrite its value fields from the handler's current
record.  Used to state the specification of the walk. -/
def updOne (ff : ForceFieldState) (s : Smirk) : Smirk :=
  match findRec (getHandler ff s.type) s.smirks with
  | some r => update_parameters s r true
  | none => s

/-- Resolve the governing record of every atom tuple of a smirk, in order
(the `for atoms in smirk.atoms` loop of `get_initial_parameters`); a missing
label raises (`KeyError`). -/
def resolveAtoms (labels : Labels) (t : SmirksType) :
    List (List Nat) → Except FFError (List ParamRecord)
  | [] => .ok []
  | a :: rest =>
    match lookupLabel labels t a with
    | none => .error .KeyError
    | some r => (resolveAtoms labels t rest).map (r :: ·)

/-- `set([param.id for param in openff_params])`: the distinct ids, kept in
first-seen order. -/
def distinctIds (ps : List ParamRecord) : List String :=
  ps.foldl (fun acc p => if acc.contains p.id then acc else acc ++ [p.id]) []

/-- `ForceFieldEditor.get_initial_parameters`: resolve the governing record
of every atom tuple in `smirk.atoms`; assert that exactly one distinct
governing id was found (`AmbiguousClusterError` otherwise) and update the
smirk's value fields from the first resolved record. -/
def get_initial_parameters (labels : Labels) (smirk : Smirk)
    (clear_existing : Bool) : Except FFError Smirk :=
  match resolveAtoms labels smirk.type smirk.atoms with
  | .error e => .error e
  | .ok openff_params =>
    match openff_params, distinctIds openff_params with
    | p :: _, [_] => .ok (update_parameters smirk p clear_existing)
    | _, _ => .error .AmbiguousClusterError

/-! ## Workflow stage model (`collection_workflows.py`) -/

/-- The `CollectionMethod` enum. -/
inductive CollectionMethod where
  | TorsionDrive1D
  | TorsionDrive2D
  | Optimization
  | Hessian
  | Energy
  | Gradient
  | Local
  deriving DecidableEq, Repr

/-- The `Precedence` enum. -/
inductive Precedence where
  | Serial
  | Parallel
  deriving DecidableEq, Repr

/-- The externally defined `Status` lifecycle enum. -/
inductive Status where
  | Prepared
  | Running
  | Collected
  | Error
  deriving DecidableEq, Repr

/-- The molecule reference carried by a result record, with its raw
geometry payload (opaque to this core). -/
structure ResultMolecule where
  geometry : List Int
  deriving DecidableEq, Repr

/-- A quantum-chemistry result record (`SingleResult`), read-only here. -/
structure SingleResult where
  molecule : ResultMolecule
  deriving DecidableEq, Repr

/-- The fixed length unit used to tag geometries (`unit.bohr`). -/
inductive LengthUnit where
  | bohr
  deriving DecidableEq, Repr

/-- `unit.Quantity(value, unit)`: a raw geometry tagged with a unit. -/
structure Quantity where
  value : List Int
  unitTag : LengthUnit
  deriving DecidableEq, Repr

/-- The `WorkflowStage` record.  Field defaults follow the source's
declarations; note the source spells the retry counter `retires`. -/
structure WorkflowStage where
  method : CollectionMethod
  result : Option (List SingleResult) := none
  status : Status := .Prepared
  keywords : List (String × Int) := []
  precedence : Precedence := .Serial
  retires : Nat := 0
  job_id : String := ""
  deriving DecidableEq, Repr

/-- `WorkflowStage.get_result_geometries`: iterating `self.result` raises
(`TypeError`) when `result` is `None`; otherwise each result's raw geometry
is tagged with the bohr length unit, in order. -/
def get_result_geometries (stage : WorkflowStage) : Except String (List Quantity) :=
  match stage.result with
  | none => .error "TypeError: NoneType is not iterable"
  | some rs => .ok (rs.map (fun r => { value := r.molecule.geometry, unitTag := .bohr }))

/-! ## Concrete evaluation inputs -/

/-- An empty force-field state. -/
def ffEmpty : ForceFieldState :=
  { bonds := [], angles := [], properTorsions := [], vdw := [] }

/-- A bond record with id "b1" for the pattern "[#6:1]". -/
def recB1 : ParamRecord :=
  { id := "b1", smirks := "[#6:1]", values := [("length", 3)], parameterize := true }

/-- A force field holding only `recB1`. -/
def ffOneBond : ForceFieldState :=
  { bonds := [recB1], angles := [], properTorsions := [], vdw := [] }

/-- A bond parameter re-submitting the pattern "[#6:1]" with a new value. -/
def smirkC6 : Smirk :=
  { type := .Bonds, smirks := "[#6:1]", atoms := [], values := [("length", 7)] }

/-- A bond parameter for the pattern "[#6:1]-[#6:2]" with a given value. -/
def smirkCC (v : Int) : Smirk :=
  { type := .Bonds, smirks := "[#6:1]-[#6:2]", atoms := [], values := [("length", v)] }

/-- A bond parameter for the pattern "[#7:1]-[#6:2]". -/
def smirkNC : Smirk :=
  { type := .Bonds, smirks := "[#7:1]-[#6:2]", atoms := [], values := [] }

/-- A prior bond record of a one-record handler. -/
def recH1 : ParamRecord :=
  { id := "b1", smirks := "[#1:1]", values := [], parameterize := false }

/-- A force field holding only `recH1`. -/
def ffOneH : ForceFieldState :=
  { bonds := [recH1], angles := [], properTorsions := [], vdw := [] }

/-- A batch of two genuinely new bond parameters. -/
def batchC3 : List Smirk := [smirkCC 1, smirkNC]

/-- A batch with two bond parameters sharing one pattern, differing values. -/
def batchC4 : List Smirk := [smirkCC 1, smirkCC 2]

/-- A vdW record used as a labelling target. -/
def rVdw : ParamRecord :=
  { id := "n1", smirks := "[#1:1]", values := [("epsilon", 2)], parameterize := true }

/-- A labelling where only the vdW tuple (0,) is governed, by `rVdw`. -/
def labelsW : Labels := [(SmirksType.Vdw, [0], rVdw)]

/-- A labelling where the vdW tuples (0,) and (1,) are both governed by
`rVdw`. -/
def labelsW2 : Labels := [(SmirksType.Vdw, [0], rVdw), (SmirksType.Vdw, [1], rVdw)]

/-- A vdW parameter clustering the atom tuples (0,) and (1,). -/
def smirkW : Smirk :=
  { type := .Vdw, smirks := "[#1:1]", atoms := [[0], [1]], values := [("epsilon", 9)] }

/-- A freshly constructed Hessian workflow stage (all defaults). -/
def stage0 : WorkflowStage := { method := .Hessian }

/-- A Hessian workflow stage carrying one result record. -/
def stageW : WorkflowStage :=
  { method := .Hessian, result := some [{ molecule := { geometry := [1, 2, 3] } }] }

/-! ## Decimal-string lemmas -/

theorem digitVal_digitChar {d : Nat} (h : d < 10) : digitVal (digitChar d) = d := by
  interval_cases d <;> rfl

theorem decAux_append (a : Nat) (l : List Char) (c : Char) :
    decAux a (l ++ [c]) = decAux a l * 10 + digitVal c := by
  simp [decAux, List.foldl_append]

theorem decAux_natDecAux :
    ∀ (f n : Nat), n ≤ f ∨ n < 10 → decAux 0 (natDecAux f n) = n := by
  intro f
  induction f with
  | zero =>
    intro n hn
    have h10 : n < 10 := by omega
    simp [natDecAux, decAux, digitVal_digitChar h10]
  | succ f ih =>
    intro n hn
    by_cases h10 : n < 10
    · simp [natDecAux, h10, decAux, digitVal_digitChar h10]
    · have hnf : n ≤ f + 1 := by omega
      have hlt : n / 10 < n := Nat.div_lt_self (by omega) (by omega)
      simp only [natDecAux, if_neg h10]
      rw [decAux_append, ih (n / 10) (Or.inl (by omega)),
        digitVal_digitChar (Nat.mod_lt n (by omega))]
      omega

theorem decAux_natDec (n : Nat) : decAux 0 (natDec n) = n :=
  decAux_natDecAux n n (Or.inl (Nat.le_refl n))

theorem natDec_injective : Function.Injective natDec := by
  intro m n h
  have := decAux_natDec m
  rw [h, decAux_natDec] at this
  omega

theorem natStr_injective : Function.Injective natStr := by
  intro m n h
  exact natDec_injective (congrArg String.data h)

/-! ## Basic lemmas about the handler primitives -/

theorem stripFlag_smirks (p : Smirk) (par : Bool) :
    (stripFlag (to_off_smirks p) par).smirks = p.smirks := by
  cases par <;> rfl

theorem stripFlag_values (p : Smirk) (par : Bool) :
    (stripFlag (to_off_smirks p) par).values = p.values := by
  cases par <;> rfl

theorem recordWithId_smirks (i : String) (d : OffData) :
    (recordWithId i d).smirks = d.smirks := rfl

theorem findRec_nil (k : String) : findRec [] k = none := rfl

theorem findRec_cons (r : ParamRecord) (rs : List ParamRecord) (k : String) :
    findRec (r :: rs) k = if r.smirks == k then some r else findRec rs k := by
  by_cases h : r.smirks == k
  · simp [findRec, List.find?_cons_of_pos, h]
  · simp only [findRec] at *
    rw [List.find?_cons_of_neg _ (by simpa using h), if_neg h]

theorem findRec_append (h₁ h₂ : List ParamRecord) (k : String) :
    findRec (h₁ ++ h₂) k =
      match findRec h₁ k with
      | some r => some r
      | none => findRec h₂ k := by
  induction h₁ with
  | nil => simp [findRec_nil]
  | cons r rs ih =>
    rw [List.cons_append, findRec_cons, findRec_cons]
    by_cases h : r.smirks == k <;> simp [h, ih]

theorem findRec_some_smirks {cur : List ParamRecord} {k : String} {r : ParamRecord}
    (h : findRec cur k = some r) : r.smirks = k := by
  induction cur with
  | nil => simp [findRec_nil] at h
  | cons x xs ih =>
    rw [findRec_cons] at h
    by_cases hx : x.smirks == k
    · rw [if_pos hx] at h
      cases h
      exact by simpa using hx
    · rw [if_neg hx] at h
      exact ih h

theorem updateFirst_none_iff (cur : List ParamRecord) (k : String) (d : OffData) :
    updateFirst cur k d = none ↔ findRec cur k = none := by
  induction cur with
  | nil => simp [updateFirst, findRec_nil]
  | cons r rs ih =>
    rw [findRec_cons]
    by_cases h : r.smirks == k
    · simp [updateFirst, h]
    · simp [updateFirst, h, ih]

theorem updateFirst_some_spec {cur cur' : List ParamRecord} {k : String} {d : OffData}
    (hd : d.smirks = k) (h : updateFirst cur k d = some cur') :
    ∃ r, findRec cur k = some r ∧ findRec cur' k = some (recordWithId r.id d) := by
  induction cur generalizing cur' with
  | nil => simp [updateFirst] at h
  | cons r rs ih =>
    by_cases hr : r.smirks == k
    · simp only [updateFirst, if_pos hr] at h
      cases h
      refine ⟨r, ?_, ?_⟩
      · rw [findRec_cons, if_pos hr]
      · rw [findRec_cons, if_pos (by simp [recordWithId, hd])]
    · simp only [updateFirst, if_neg hr] at h
      cases hrest : updateFirst rs k d with
      | none => rw [hrest] at h; simp at h
      | some rs' =>
        rw [hrest] at h
        simp only [Option.map] at h
        rw [Option.some_inj] at h
        obtain ⟨r₀, h₁, h₂⟩ := ih hrest
        subst h
        exact ⟨r₀, by rw [findRec_cons, if_neg hr]; exact h₁,
          by rw [findRec_cons, if_neg hr]; exact h₂⟩

theorem updateFirst_findRec_other {cur cur' : List ParamRecord} {key k : String}
    {d : OffData} (hd : d.smirks = key) (hne : ¬ k = key)
    (h : updateFirst cur key d = some cur') : findRec cur' k = findRec cur k := by
  induction cur generalizing cur' with
  | nil => simp [updateFirst] at h
  | cons r rs ih =>
    by_cases hr : r.smirks == key
    · simp only [updateFirst, if_pos hr] at h
      cases h
      rw [findRec_cons, findRec_cons, recordWithId_smirks, hd,
        if_neg (by simpa using fun hh => hne hh.symm),
        if_neg (by simp only [beq_iff_eq] at hr ⊢; rw [hr]; exact fun hh => hne hh.symm)]
    · simp only [updateFirst, if_neg hr] at h
      cases hrest : updateFirst rs key d with
      | none => rw [hrest] at h; simp at h
      | some rs' =>
        rw [hrest] at h
        simp only [Option.map] at h
        rw [Option.some_inj] at h
        subst h
        rw [findRec_cons, findRec_cons]
        by_cases hk : r.smirks == k <;> simp [hk, ih hrest]

theorem countKey_append (cur : List ParamRecord) (r : ParamRecord) (k : String) :
    countKey (cur ++ [r]) k = countKey cur k + (if r.smirks == k then 1 else 0) := by
  by_cases h : r.smirks == k <;> simp [countKey, List.filter_append, h]

theorem countKey_eq_zero {cur : List ParamRecord} {k : String} :
    countKey cur k = 0 ↔ findRec cur k = none := by
  induction cur with
  | nil => simp [countKey, findRec_nil]
  | cons r rs ih =>
    rw [findRec_cons]
    by_cases h : r.smirks == k
    · simp [countKey, List.filter_cons, h]
    · rw [if_neg h]
      simpa [countKey, List.filter_cons, h] using ih

theorem countKey_updateFirst {cur cur' : List ParamRecord} {key : String} {d : OffData}
    (hd : d.smirks = key) (h : updateFirst cur key d = some cur') (k : String) :
    countKey cur' k = countKey cur k := by
  induction cur generalizing cur' with
  | nil => simp [updateFirst] at h
  | cons r rs ih =>
    by_cases hr : r.smirks == key
    · simp only [updateFirst, if_pos hr] at h
      cases h
      have hr' : r.smirks = key := by simpa using hr
      have : (recordWithId r.id d).smirks = r.smirks := by
        rw [recordWithId_smirks, hd, hr']
      by_cases hk : r.smirks == k <;>
        simp [countKey, List.filter_cons, this, hk]
    · simp only [updateFirst, if_neg hr] at h
      cases hrest : updateFirst rs key d with
      | none => rw [hrest] at h; simp at h
      | some rs' =>
        rw [hrest] at h
        simp only [Option.map] at h
        rw [Option.some_inj] at h
        subst h
        by_cases hk : r.smirks == k
        · simpa [countKey, List.filter_cons, hk] using ih hrest
        · simpa [countKey, List.filter_cons, hk] using ih hrest

/-! ## Deduplication bucket lemmas -/

theorem bucketStep_not_type {t : SmirksType} {s : Smirk} (acc : List Smirk)
    (h : ¬ s.type = t) : bucketStep t acc s = acc := by
  unfold bucketStep
  rw [if_neg (by simpa using h)]

theorem bucketStep_dup {t : SmirksType} {s : Smirk} {acc : List Smirk}
    (h : s.type = t) (hany : (acc.any fun x => smirkEq x s) = true) :
    bucketStep t acc s = acc := by
  unfold bucketStep
  rw [if_pos (by simpa using h), if_pos hany]

theorem bucketStep_new {t : SmirksType} {s : Smirk} {acc : List Smirk}
    (h : s.type = t) (hany : ¬ (acc.any fun x => smirkEq x s) = true) :
    bucketStep t acc s = acc ++ [s] := by
  unfold bucketStep
  rw [if_pos (by simpa using h), if_neg hany]

theorem smirkEq_of_parts {a b : Smirk} (ht : a.type = b.type)
    (hs : a.smirks = b.smirks) : smirkEq a b = true := by
  simp [smirkEq, ht, hs]

theorem bucketFold_type {t : SmirksType} :
    ∀ (l : List Smirk) (acc : List Smirk), (∀ x ∈ acc, x.type = t) →
      ∀ x ∈ List.foldl (bucketStep t) acc l, x.type = t := by
  intro l
  induction l with
  | nil => intro acc hacc x hx; exact hacc x hx
  | cons s rest ih =>
    intro acc hacc x hx
    rw [List.foldl_cons] at hx
    refine ih (bucketStep t acc s) ?_ x hx
    intro y hy
    by_cases hst : s.type = t
    · by_cases hany : (acc.any fun x => smirkEq x s) = true
      · rw [bucketStep_dup hst hany] at hy; exact hacc y hy
      · rw [bucketStep_new hst hany] at hy
        rcases List.mem_append.mp hy with h | h
        · exact hacc y h
        · rw [List.mem_singleton.mp h]; exact hst
    · rw [bucketStep_not_type acc hst] at hy; exact hacc y hy

theorem dedupBucket_type {t : SmirksType} {l : List Smirk} :
    ∀ x ∈ dedupBucket t l, x.type = t :=
  bucketFold_type l [] (by simp)

theorem bucketFold_pairwise {t : SmirksType} :
    ∀ (l : List Smirk) (acc : List Smirk), (∀ x ∈ acc, x.type = t) →
      acc.Pairwise (fun a b => ¬ a.smirks = b.smirks) →
      (List.foldl (bucketStep t) acc l).Pairwise (fun a b => ¬ a.smirks = b.smirks) := by
  intro l
  induction l with
  | nil => intro acc _ hpw; simpa using hpw
  | cons s rest ih =>
    intro acc hacc hpw
    rw [List.foldl_cons]
    have hacc' : ∀ x ∈ bucketStep t acc s, x.type = t := by
      have := @bucketFold_type t [s] acc hacc
      simpa using this
    refine ih (bucketStep t acc s) hacc' ?_
    by_cases hst : s.type = t
    · by_cases hany : (acc.any fun x => smirkEq x s) = true
      · rw [bucketStep_dup hst hany]; exact hpw
      · rw [bucketStep_new hst hany, List.pairwise_append]
        refine ⟨hpw, List.pairwise_singleton _ _, ?_⟩
        intro a ha b hb
        rw [List.mem_singleton.mp hb]
        intro heq
        exact hany (List.any_eq_true.mpr
          ⟨a, ha, smirkEq_of_parts ((hacc a ha).trans hst.symm) heq⟩)
    · rw [bucketStep_not_type acc hst]; exact hpw

theorem dedupBucket_pairwise {t : SmirksType} {l : List Smirk} :
    (dedupBucket t l).Pairwise (fun a b => ¬ a.smirks = b.smirks) :=
  bucketFold_pairwise l [] (by simp) List.Pairwise.nil

theorem bucketFold_filter_stop {t : SmirksType} {s₀ : String} :
    ∀ (l : List Smirk) (acc : List Smirk), (∀ x ∈ acc, x.type = t) →
      (∃ x ∈ acc, x.smirks = s₀) →
      (List.foldl (bucketStep t) acc l).filter (fun q => q.smirks == s₀)
        = acc.filter (fun q => q.smirks == s₀) := by
  intro l
  induction l with
  | nil => intro acc _ _; simp
  | cons s rest ih =>
    intro acc hacc hex
    rw [List.foldl_cons]
    by_cases hst : s.type = t
    · by_cases hany : (acc.any fun x => smirkEq x s) = true
      · rw [bucketStep_dup hst hany]; exact ih acc hacc hex
      · rw [bucketStep_new hst hany]
        have hne : ¬ s.smirks = s₀ := by
          intro hss
          obtain ⟨x, hx, hxs⟩ := hex
          exact hany (List.any_eq_true.mpr
            ⟨x, hx, smirkEq_of_parts ((hacc x hx).trans hst.symm) (hxs.trans hss.symm)⟩)
        have hacc' : ∀ x ∈ acc ++ [s], x.type = t := by
          intro y hy
          rcases List.mem_append.mp hy with h | h
          · exact hacc y h
          · rw [List.mem_singleton.mp h]; exact hst
        have hex' : ∃ x ∈ acc ++ [s], x.smirks = s₀ := by
          obtain ⟨x, hx, hxs⟩ := hex
          exact ⟨x, List.mem_append_left _ hx, hxs⟩
        rw [ih (acc ++ [s]) hacc' hex', List.filter_append]
        simp [hne]
    · rw [bucketStep_not_type acc hst]; exact ih acc hacc hex

theorem bucketFold_filter_find {t : SmirksType} {s₀ : String} :
    ∀ (l : List Smirk) (acc : List Smirk), (∀ x ∈ acc, x.type = t) →
      (∀ x ∈ acc, ¬ x.smirks = s₀) →
      (List.foldl (bucketStep t) acc l).filter (fun q => q.smirks == s₀)
        = match l.find? (fun p => p.type == t && p.smirks == s₀) with
          | some q => [q]
          | none => [] := by
  intro l
  induction l with
  | nil =>
    intro acc _ hno
    simp only [List.foldl_nil, List.find?_nil]
    exact List.filter_eq_nil_iff.mpr (by intro a ha; simpa using hno a ha)
  | cons s rest ih =>
    intro acc hacc hno
    rw [List.foldl_cons]
    by_cases hst : s.type = t
    · by_cases hss : s.smirks = s₀
      · have hfind : List.find? (fun p => p.type == t && p.smirks == s₀) (s :: rest)
            = some s := List.find?_cons_of_pos _ (by simp [hst, hss])
        rw [hfind]
        have hany : ¬ (acc.any fun x => smirkEq x s) = true := by
          intro hany
          obtain ⟨x, hx, hxe⟩ := List.any_eq_true.mp hany
          simp only [smirkEq, Bool.and_eq_true, beq_iff_eq] at hxe
          exact hno x hx (hxe.2.trans hss)
        rw [bucketStep_new hst hany]
        have hacc' : ∀ x ∈ acc ++ [s], x.type = t := by
          intro y hy
          rcases List.mem_append.mp hy with h | h
          · exact hacc y h
          · rw [List.mem_singleton.mp h]; exact hst
        have hex' : ∃ x ∈ acc ++ [s], x.smirks = s₀ :=
          ⟨s, List.mem_append_right _ (List.mem_singleton_self s), hss⟩
        rw [bucketFold_filter_stop rest (acc ++ [s]) hacc' hex', List.filter_append]
        rw [List.filter_eq_nil_iff.mpr (by intro a ha; simpa using hno a ha)]
        simp [hss]
      · have hfind : List.find? (fun p => p.type == t && p.smirks == s₀) (s :: rest)
            = List.find? (fun p => p.type == t && p.smirks == s₀) rest :=
          List.find?_cons_of_neg _ (by simp [hss])
        rw [hfind]
        by_cases hany : (acc.any fun x => smirkEq x s) = true
        · rw [bucketStep_dup hst hany]; exact ih acc hacc hno
        · rw [bucketStep_new hst hany]
          refine ih (acc ++ [s]) ?_ ?_
          · intro y hy
            rcases List.mem_append.mp hy with h | h
            · exact hacc y h
            · rw [List.mem_singleton.mp h]; exact hst
          · intro y hy
            rcases List.mem_append.mp hy with h | h
            · exact hno y h
            · rw [List.mem_singleton.mp h]; exact hss
    · have hfind : List.find? (fun p => p.type == t && p.smirks == s₀) (s :: rest)
          = List.find? (fun p => p.type == t && p.smirks == s₀) rest :=
        List.find?_cons_of_neg _ (by simp [hst])
      rw [hfind, bucketStep_not_type acc hst]
      exact ih acc hacc hno

/-- First-seen semantics of the deduplication: the bucket's entries with a
given smirks key are exactly the first input entry of that type and key. -/
theorem dedupBucket_filter (t : SmirksType) (l : List Smirk) (s₀ : String) :
    (dedupBucket t l).filter (fun q => q.smirks == s₀)
      = match l.find? (fun p => p.type == t && p.smirks == s₀) with
        | some q => [q]
        | none => [] :=
  bucketFold_filter_find l [] (by simp) (by simp)

/-! ## Write-loop lemmas -/

theorem findRec_append_single_ne {cur : List ParamRecord} {r : ParamRecord}
    {k : String} (h : ¬ r.smirks = k) : findRec (cur ++ [r]) k = findRec cur k := by
  rw [findRec_append]
  cases hc : findRec cur k with
  | some x => rfl
  | none => rw [findRec_cons, if_neg (by simpa using h), findRec_nil]

theorem processParams_nil (t : SmirksType) (par : Bool) (n i : Nat)
    (cur : List ParamRecord) : processParams t par n [] i cur = cur := rfl

theorem processParams_cons_update {t : SmirksType} {par : Bool} {n : Nat}
    {p : Smirk} {rest : List Smirk} {i : Nat} {cur u : List ParamRecord}
    (h : updateFirst cur p.smirks (stripFlag (to_off_smirks p) par) = some u) :
    processParams t par n (p :: rest) i cur = processParams t par n rest (i + 1) u := by
  simp only [processParams]
  rw [h]

theorem processParams_cons_append {t : SmirksType} {par : Bool} {n : Nat}
    {p : Smirk} {rest : List Smirk} {i : Nat} {cur : List ParamRecord}
    (h : updateFirst cur p.smirks (stripFlag (to_off_smirks p) par) = none) :
    processParams t par n (p :: rest) i cur
      = processParams t par n rest (i + 1)
          (cur ++ [recordWithId (smirksId t ++ natStr (n + i))
            (stripFlag (to_off_smirks p) par)]) := by
  simp only [processParams]
  rw [h]

theorem processParams_findRec_other {t : SmirksType} {par : Bool} {n : Nat}
    {k : String} :
    ∀ (ps : List Smirk) (i : Nat) (cur : List ParamRecord),
      (∀ p ∈ ps, ¬ p.smirks = k) →
      findRec (processParams t par n ps i cur) k = findRec cur k := by
  intro ps
  induction ps with
  | nil => intro i cur _; rw [processParams_nil]
  | cons p rest ih =>
    intro i cur hps
    have hd : (stripFlag (to_off_smirks p) par).smirks = p.smirks := stripFlag_smirks p par
    have hpk : ¬ p.smirks = k := hps p (List.mem_cons_self p rest)
    cases hu : updateFirst cur p.smirks (stripFlag (to_off_smirks p) par) with
    | some u =>
      rw [processParams_cons_update hu,
        ih (i + 1) u (fun q hq => hps q (List.mem_cons_of_mem p hq)),
        updateFirst_findRec_other hd (fun hh => hpk hh.symm) hu]
    | none =>
      rw [processParams_cons_append hu,
        ih (i + 1) _ (fun q hq => hps q (List.mem_cons_of_mem p hq)),
        findRec_append_single_ne (by rwa [recordWithId_smirks, hd])]

theorem processParams_post {t : SmirksType} {par : Bool} {n : Nat} :
    ∀ (ps : List Smirk) (i : Nat) (cur : List ParamRecord),
      ps.Pairwise (fun a b => ¬ a.smirks = b.smirks) →
      ∀ p ∈ ps, ∃ id, findRec (processParams t par n ps i cur) p.smirks
        = some (recordWithId id (stripFlag (to_off_smirks p) par)) := by
  intro ps
  induction ps with
  | nil => intro i cur _ p hp; exact absurd hp (List.not_mem_nil p)
  | cons q rest ih =>
    intro i cur hpw p hp
    have hd : (stripFlag (to_off_smirks q) par).smirks = q.smirks := stripFlag_smirks q par
    rcases List.mem_cons.mp hp with rfl | hrest
    · -- the head parameter: its record is written in this step and preserved after
      have hothers : ∀ x ∈ rest, ¬ x.smirks = p.smirks := by
        intro x hx hxe
        exact (List.pairwise_cons.mp hpw).1 x hx hxe.symm
      cases hu : updateFirst cur p.smirks (stripFlag (to_off_smirks p) par) with
      | some u =>
        obtain ⟨r, _, hfound⟩ := updateFirst_some_spec hd hu
        rw [processParams_cons_update hu, processParams_findRec_other rest (i + 1) u hothers]
        exact ⟨r.id, hfound⟩
      | none =>
        rw [processParams_cons_append hu,
          processParams_findRec_other rest (i + 1) _ hothers, findRec_append]
        rw [(updateFirst_none_iff cur p.smirks _).mp hu]
        refine ⟨smirksId t ++ natStr (n + i), ?_⟩
        rw [findRec_cons, if_pos (by rw [recordWithId_smirks, hd]; exact beq_self_eq_true _)]
    · -- a later parameter: apply the induction hypothesis to the stepped state
      cases hu : updateFirst cur q.smirks (stripFlag (to_off_smirks q) par) with
      | some u =>
        rw [processParams_cons_update hu]
        exact ih (i + 1) u (List.pairwise_cons.mp hpw).2 p hrest
      | none =>
        rw [processParams_cons_append hu]
        exact ih (i + 1) _ (List.pairwise_cons.mp hpw).2 p hrest

theorem updateFirst_self {cur : List ParamRecord} {k : String} {d : OffData}
    {i : String} (h : findRec cur k = some (recordWithId i d)) :
    updateFirst cur k d = some cur := by
  induction cur with
  | nil => simp [findRec_nil] at h
  | cons r rs ih =>
    rw [findRec_cons] at h
    by_cases hr : r.smirks == k
    · rw [if_pos hr] at h
      rw [Option.some_inj] at h
      unfold updateFirst
      rw [if_pos hr]
      subst h
      rfl
    · rw [if_neg hr] at h
      unfold updateFirst
      rw [if_neg hr, ih h]
      rfl

theorem processParams_fixpoint {t : SmirksType} {par : Bool} {n : Nat} :
    ∀ (ps : List Smirk) (i : Nat) (cur : List ParamRecord),
      (∀ p ∈ ps, ∃ id, findRec cur p.smirks
        = some (recordWithId id (stripFlag (to_off_smirks p) par))) →
      processParams t par n ps i cur = cur := by
  intro ps
  induction ps with
  | nil => intro i cur _; rw [processParams_nil]
  | cons p rest ih =>
    intro i cur hps
    obtain ⟨id, hid⟩ := hps p (List.mem_cons_self p rest)
    rw [processParams_cons_update (updateFirst_self hid)]
    exact ih (i + 1) cur (fun q hq => hps q (List.mem_cons_of_mem p hq))

theorem newRecords_nil (t : SmirksType) (par : Bool) (n i : Nat) :
    newRecords t par n i [] = [] := rfl

theorem newRecords_cons (t : SmirksType) (par : Bool) (n i : Nat) (p : Smirk)
    (rest : List Smirk) :
    newRecords t par n i (p :: rest)
      = recordWithId (smirksId t ++ natStr (n + i)) (stripFlag (to_off_smirks p) par)
          :: newRecords t par n (i + 1) rest := rfl

theorem processParams_all_new {t : SmirksType} {par : Bool} {n : Nat} :
    ∀ (ps : List Smirk) (i : Nat) (cur : List ParamRecord),
      ps.Pairwise (fun a b => ¬ a.smirks = b.smirks) →
      (∀ p ∈ ps, findRec cur p.smirks = none) →
      processParams t par n ps i cur = cur ++ newRecords t par n i ps := by
  intro ps
  induction ps with
  | nil => intro i cur _ _; rw [processParams_nil, newRecords_nil, List.append_nil]
  | cons p rest ih =>
    intro i cur hpw hnew
    have hd : (stripFlag (to_off_smirks p) par).smirks = p.smirks := stripFlag_smirks p par
    have hu : updateFirst cur p.smirks (stripFlag (to_off_smirks p) par) = none :=
      (updateFirst_none_iff cur p.smirks _).mpr (hnew p (List.mem_cons_self p rest))
    rw [processParams_cons_append hu]
    have hnew' : ∀ q ∈ rest,
        findRec (cur ++ [recordWithId (smirksId t ++ natStr (n + i))
          (stripFlag (to_off_smirks p) par)]) q.smirks = none := by
      intro q hq
      rw [findRec_append_single_ne]
      · exact hnew q (List.mem_cons_of_mem p hq)
      · rw [recordWithId_smirks, hd]
        intro hh
        exact (List.pairwise_cons.mp hpw).1 q hq hh
    rw [ih (i + 1) _ (List.pairwise_cons.mp hpw).2 hnew', newRecords_cons,
      List.append_assoc]
    rfl

theorem newRecords_map_id (t : SmirksType) (par : Bool) (n : Nat) :
    ∀ (ps : List Smirk) (i : Nat),
      (newRecords t par n i ps).map (fun r => r.id)
        = (List.range' (n + i) ps.length).map (fun m => smirksId t ++ natStr m) := by
  intro ps
  induction ps with
  | nil => intro i; rfl
  | cons p rest ih =>
    intro i
    rw [newRecords_cons, List.map_cons, List.length_cons, List.range'_succ,
      List.map_cons, ih (i + 1)]
    have : n + i + 1 = n + (i + 1) := by omega
    rw [this]
    rfl

theorem prefixed_natStr_injective (s : String) :
    Function.Injective (fun m => s ++ natStr m) := by
  intro m n h
  apply natDec_injective
  have hd := congrArg String.data h
  rw [String.data_append, String.data_append] at hd
  exact List.append_cancel_left hd

theorem newRecords_id_nodup (t : SmirksType) (par : Bool) (n : Nat)
    (ps : List Smirk) (i : Nat) :
    ((newRecords t par n i ps).map (fun r => r.id)).Nodup := by
  rw [newRecords_map_id]
  exact (List.nodup_range' _ _).map (prefixed_natStr_injective (smirksId t))

theorem processParams_countKey {t : SmirksType} {par : Bool} {n : Nat} :
    ∀ (ps : List Smirk) (i : Nat) (cur : List ParamRecord) (k : String),
      ps.Pairwise (fun a b => ¬ a.smirks = b.smirks) →
      countKey (processParams t par n ps i cur) k
        = if k ∈ ps.map Smirk.smirks ∧ countKey cur k = 0 then 1
          else countKey cur k := by
  intro ps
  induction ps with
  | nil =>
    intro i cur k _
    rw [processParams_nil]
    simp
  | cons p rest ih =>
    intro i cur k hpw
    have hd : (stripFlag (to_off_smirks p) par).smirks = p.smirks := stripFlag_smirks p par
    cases hu : updateFirst cur p.smirks (stripFlag (to_off_smirks p) par) with
    | some u =>
      have hcount : ∀ k', countKey u k' = countKey cur k' := countKey_updateFirst hd hu
      have hne : ¬ countKey cur p.smirks = 0 := by
        rw [countKey_eq_zero]
        intro hnone
        rw [(updateFirst_none_iff cur p.smirks _).mpr hnone] at hu
        exact Option.noConfusion hu
      rw [processParams_cons_update hu, ih (i + 1) u k (List.pairwise_cons.mp hpw).2,
        hcount]
      by_cases hk : k = p.smirks
      · subst hk
        rw [if_neg (fun hc => hne hc.2), if_neg (fun hc => hne hc.2)]
      · have hiff : k ∈ (p :: rest).map Smirk.smirks ↔ k ∈ rest.map Smirk.smirks := by
          simp only [List.map_cons, List.mem_cons]
          exact ⟨fun hc => hc.resolve_left hk, Or.inr⟩
        rw [if_congr (and_congr_left fun _ => hiff.symm) rfl rfl]
    | none =>
      have hzero : countKey cur p.smirks = 0 :=
        countKey_eq_zero.mpr ((updateFirst_none_iff cur p.smirks _).mp hu)
      rw [processParams_cons_append hu, ih (i + 1) _ k (List.pairwise_cons.mp hpw).2]
      have hrec : (recordWithId (smirksId t ++ natStr (n + i))
          (stripFlag (to_off_smirks p) par)).smirks = p.smirks := by
        rw [recordWithId_smirks, hd]
      by_cases hk : k = p.smirks
      · subst hk
        have hc1 : countKey (cur ++ [recordWithId (smirksId t ++ natStr (n + i))
            (stripFlag (to_off_smirks p) par)]) p.smirks = 1 := by
          rw [countKey_append, hzero, if_pos (by rw [hrec]; exact beq_self_eq_true _)]
        rw [hc1, if_neg (fun hc => Nat.one_ne_zero hc.2), if_pos ⟨by simp, hzero⟩]
      · have hc : countKey (cur ++ [recordWithId (smirksId t ++ natStr (n + i))
            (stripFlag (to_off_smirks p) par)]) k = countKey cur k := by
          rw [countKey_append, if_neg (by rw [hrec]; simpa using fun hh => hk hh.symm)]
          omega
        rw [hc]
        have hiff : k ∈ (p :: rest).map Smirk.smirks ↔ k ∈ rest.map Smirk.smirks := by
          simp only [List.map_cons, List.mem_cons]
          exact ⟨fun hc => hc.resolve_left hk, Or.inr⟩
        rw [if_congr (and_congr_left fun _ => hiff.symm) rfl rfl]

/-! ## `add_smirks` top-level lemmas -/

theorem getHandler_add_smirks (ff : ForceFieldState) (smirks : List Smirk)
    (par : Bool) (t : SmirksType) :
    getHandler (add_smirks ff smirks par) t
      = addSmirksForType t smirks par (getHandler ff t) := by
  cases t <;> rfl

theorem addSmirksForType_idem (t : SmirksType) (smirks : List Smirk) (par : Bool)
    (h : List ParamRecord) :
    addSmirksForType t smirks par (addSmirksForType t smirks par h)
      = addSmirksForType t smirks par h := by
  unfold addSmirksForType
  apply processParams_fixpoint
  intro p hp
  exact processParams_post (dedupBucket t smirks) 2 h dedupBucket_pairwise p hp

theorem processParams_preserves_id {t : SmirksType} {par : Bool} {n : Nat} :
    ∀ (ps : List Smirk) (i : Nat) (cur : List ParamRecord) (k : String)
      (r : ParamRecord), findRec cur k = some r →
      ∃ r', findRec (processParams t par n ps i cur) k = some r' ∧ r'.id = r.id := by
  intro ps
  induction ps with
  | nil => intro i cur k r h; exact ⟨r, by rwa [processParams_nil], rfl⟩
  | cons p rest ih =>
    intro i cur k r h
    have hd : (stripFlag (to_off_smirks p) par).smirks = p.smirks := stripFlag_smirks p par
    cases hu : updateFirst cur p.smirks (stripFlag (to_off_smirks p) par) with
    | some u =>
      by_cases hpk : p.smirks = k
      · subst hpk
        obtain ⟨r₀, hr₀, hfound⟩ := updateFirst_some_spec hd hu
        rw [h] at hr₀
        rw [Option.some_inj] at hr₀
        subst hr₀
        rw [processParams_cons_update hu]
        obtain ⟨r', hr', hid⟩ := ih (i + 1) u p.smirks _ hfound
        exact ⟨r', hr', hid⟩
      · rw [processParams_cons_update hu]
        refine ih (i + 1) u k r ?_
        rw [updateFirst_findRec_other hd (fun hh => hpk hh.symm) hu]
        exact h
    | none =>
      have hpk : ¬ p.smirks = k := by
        intro hh
        have hnone : findRec cur p.smirks = none :=
          (updateFirst_none_iff cur p.smirks _).mp hu
        rw [hh, h] at hnone
        exact Option.noConfusion hnone
      rw [processParams_cons_append hu]
      refine ih (i + 1) _ k r ?_
      rw [findRec_append_single_ne (by rwa [recordWithId_smirks, hd])]
      exact h

theorem add_smirks_preserves_id {ff : ForceFieldState} (smirks : List Smirk)
    (par : Bool) {t : SmirksType} {k : String} {r : ParamRecord}
    (h : findRec (getHandler ff t) k = some r) :
    ∃ r', findRec (getHandler (add_smirks ff smirks par) t) k = some r'
      ∧ r'.id = r.id := by
  rw [getHandler_add_smirks]
  exact processParams_preserves_id (dedupBucket t smirks) 2 (getHandler ff t) k r h

/-! ## Claim theorems for `add_smirks` -/

/-- C1: calling `add_smirks` a second time with the identical input sequence
and the same `parameterize` flag leaves the force-field state unchanged
after the second call — no record is duplicated and no id is changed by the
repeat call. -/
theorem add_smirks_idempotent (ff : ForceFieldState) (smirks : List Smirk)
    (parameterize : Bool) :
    add_smirks (add_smirks ff smirks parameterize) smirks parameterize
      = add_smirks ff smirks parameterize := by
  unfold add_smirks
  congr 1
  · exact addSmirksForType_idem .Bonds smirks parameterize ff.bonds
  · exact addSmirksForType_idem .Angles smirks parameterize ff.angles
  · exact addSmirksForType_idem .ProperTorsions smirks parameterize ff.properTorsions
  · exact addSmirksForType_idem .Vdw smirks parameterize ff.vdw

/-- C2: for a smirks key already present in a handler, `add_smirks` never
changes the record's `id`, over any sequence of calls with any batch
compositions; the key stays present and only value fields are overwritten. -/
theorem add_smirks_stable_ids (ff : ForceFieldState) (t : SmirksType)
    (k : String) (r : ParamRecord) (calls : List (List Smirk × Bool))
    (h : findRec (getHandler ff t) k = some r) :
    ∃ r', findRec (getHandler (applyCalls ff calls) t) k = some r'
      ∧ r'.id = r.id ∧ r'.smirks = k := by
  induction calls generalizing ff r with
  | nil =>
    refine ⟨r, ?_, rfl, findRec_some_smirks h⟩
    simpa [applyCalls] using h
  | cons c rest ih =>
    obtain ⟨r₁, hr₁, hid₁⟩ := add_smirks_preserves_id c.1 c.2 h
    obtain ⟨r', hr', hid', hs'⟩ := ih (add_smirks ff c.1 c.2) r₁ hr₁
    refine ⟨r', ?_, hid'.trans hid₁, hs'⟩
    simpa [applyCalls] using hr'

/-- Witness for C2 at a concrete input: a handler holding the key "[#6:1]"
under id "b1" keeps that id across a call that re-submits the pattern with
new values. -/
theorem add_smirks_stable_ids_witness :
    ∃ r', findRec (getHandler (applyCalls ffOneBond [([smirkC6], true)]) SmirksType.Bonds)
        "[#6:1]" = some r'
      ∧ r'.id = recB1.id ∧ r'.smirks = "[#6:1]" :=
  add_smirks_stable_ids ffOneBond SmirksType.Bonds "[#6:1]" recB1
    [([smirkC6], true)] (by decide)

/-- C3: `k ≥ 1` genuinely new parameters of one type submitted in a single
call against a handler of prior size `N` are appended with identifiers
`<type-prefix><N+i>`, the offsets being exactly `N+2 .. N+1+k`; the new ids
are pairwise distinct, with `N` read once before any appends. -/
theorem add_smirks_new_sequential (ff : ForceFieldState) (smirks : List Smirk)
    (par : Bool) (t : SmirksType)
    (hnew : ∀ p ∈ dedupBucket t smirks, findRec (getHandler ff t) p.smirks = none)
    (_hk : 1 ≤ (dedupBucket t smirks).length) :
    getHandler (add_smirks ff smirks par) t
        = getHandler ff t
            ++ newRecords t par (getHandler ff t).length 2 (dedupBucket t smirks)
      ∧ (newRecords t par (getHandler ff t).length 2 (dedupBucket t smirks)).map
            (fun r => r.id)
          = (List.range' ((getHandler ff t).length + 2) (dedupBucket t smirks).length).map
              (fun m => smirksId t ++ natStr m)
      ∧ ((newRecords t par (getHandler ff t).length 2 (dedupBucket t smirks)).map
            (fun r => r.id)).Nodup := by
  refine ⟨?_, newRecords_map_id t par _ _ 2, newRecords_id_nodup t par _ _ 2⟩
  rw [getHandler_add_smirks]
  exact processParams_all_new (dedupBucket t smirks) 2 (getHandler ff t)
    dedupBucket_pairwise hnew

/-- Witness for C3 at a concrete input: two new bond patterns against a
handler of prior size 1 receive ids "b3" and "b4" (offsets 3 and 4). -/
theorem add_smirks_new_sequential_witness :
    1 ≤ (dedupBucket SmirksType.Bonds batchC3).length
      ∧ (getHandler (add_smirks ffOneH batchC3 true) SmirksType.Bonds).map
          (fun r => r.id) = ["b1", "b3", "b4"] := by
  refine ⟨by decide, ?_⟩
  have h := add_smirks_new_sequential ffOneH batchC3 true SmirksType.Bonds
    (by decide) (by decide)
  rw [h.1]
  rfl

/-- C4: an input holding two or more parameters of one type with equal
smirks strings is deduplicated per type keeping the first-seen occurrence,
and exactly one record for that smirks key ends up in the handler. -/
theorem add_smirks_dedup (ff : ForceFieldState) (smirks : List Smirk)
    (par : Bool) (t : SmirksType) (s₀ : String)
    (hdup : 2 ≤ (smirks.filter (fun p => p.type == t && p.smirks == s₀)).length)
    (hkey : countKey (getHandler ff t) s₀ ≤ 1) :
    (∃ q₀, smirks.find? (fun p => p.type == t && p.smirks == s₀) = some q₀
        ∧ (dedupBucket t smirks).filter (fun q => q.smirks == s₀) = [q₀])
      ∧ countKey (getHandler (add_smirks ff smirks par) t) s₀ = 1 := by
  have hfind : ∃ q₀, smirks.find? (fun p => p.type == t && p.smirks == s₀) = some q₀ := by
    cases hf : smirks.find? (fun p => p.type == t && p.smirks == s₀) with
    | some q => exact ⟨q, rfl⟩
    | none =>
      exfalso
      have hall := List.find?_eq_none.mp hf
      have : (smirks.filter (fun p => p.type == t && p.smirks == s₀)).length = 0 := by
        rw [List.length_eq_zero]
        exact List.filter_eq_nil_iff.mpr (fun a ha hpa => hall a ha hpa)
      omega
  obtain ⟨q₀, hq₀⟩ := hfind
  have hfilter : (dedupBucket t smirks).filter (fun q => q.smirks == s₀) = [q₀] := by
    rw [dedupBucket_filter, hq₀]
  have hmem : s₀ ∈ (dedupBucket t smirks).map Smirk.smirks := by
    have hq₀mem : q₀ ∈ (dedupBucket t smirks).filter (fun q => q.smirks == s₀) := by
      rw [hfilter]; exact List.mem_singleton_self q₀
    have := List.of_mem_filter hq₀mem
    exact List.mem_map.mpr ⟨q₀, List.mem_of_mem_filter hq₀mem, by simpa using this⟩
  refine ⟨⟨q₀, hq₀, hfilter⟩, ?_⟩
  rw [getHandler_add_smirks]
  unfold addSmirksForType
  rw [processParams_countKey (dedupBucket t smirks) 2 (getHandler ff t) s₀
    dedupBucket_pairwise]
  rcases Nat.lt_or_ge (countKey (getHandler ff t) s₀) 1 with hc | hc
  · rw [if_pos ⟨hmem, by omega⟩]
  · have h1 : countKey (getHandler ff t) s₀ = 1 := by omega
    rw [if_neg (fun hcc => by omega), h1]

/-- Witness for C4 at a concrete input: two bond parameters with the same
pattern and different values yield a single handler record for that key. -/
theorem add_smirks_dedup_witness :
    (∃ q₀, batchC4.find?
        (fun p => p.type == SmirksType.Bonds && p.smirks == "[#6:1]-[#6:2]") = some q₀
        ∧ (dedupBucket SmirksType.Bonds batchC4).filter
            (fun q => q.smirks == "[#6:1]-[#6:2]") = [q₀])
      ∧ countKey (getHandler (add_smirks ffEmpty batchC4 true) SmirksType.Bonds)
          "[#6:1]-[#6:2]" = 1 :=
  add_smirks_dedup ffEmpty batchC4 true SmirksType.Bonds "[#6:1]-[#6:2]"
    (by decide) (by decide)

/-! ## Clustering lemmas (`get_smirks_parameters`) -/

theorem addAtomAt_none_iff (l : List Smirk) (s : Smirk) (a : List Nat) :
    addAtomAt l s a = none ↔ ∀ x ∈ l, smirkEq x s = false := by
  induction l with
  | nil => simp [addAtomAt]
  | cons x xs ih =>
    rw [addAtomAt]
    by_cases hx : smirkEq x s
    · rw [if_pos hx]
      constructor
      · intro h; exact Option.noConfusion h
      · intro h
        exact absurd (h x (List.mem_cons_self x xs)) (by simp [hx])
    · have hmap : (addAtomAt xs s a).map (x :: ·) = none ↔ addAtomAt xs s a = none := by
        cases addAtomAt xs s a <;> simp
      rw [if_neg hx, hmap, ih]
      constructor
      · intro h y hy
        rcases List.mem_cons.mp hy with rfl | hy
        · exact Bool.eq_false_iff.mpr hx
        · exact h y hy
      · intro h y hy
        exact h y (List.mem_cons_of_mem x hy)

theorem addAtomAt_mem {s : Smirk} {a : List Nat} :
    ∀ {l l' : List Smirk}, addAtomAt l s a = some l' →
      ∀ y' ∈ l', ∃ y ∈ l, y'.type = y.type ∧ y'.smirks = y.smirks := by
  intro l
  induction l with
  | nil => intro l' h; exact absurd h (by simp [addAtomAt])
  | cons x xs ih =>
    intro l' h y' hy'
    by_cases hx : smirkEq x s
    · rw [addAtomAt, if_pos hx, Option.some_inj] at h
      subst h
      rcases List.mem_cons.mp hy' with rfl | hy'
      · exact ⟨x, List.mem_cons_self x xs, rfl, rfl⟩
      · exact ⟨y', List.mem_cons_of_mem x hy', rfl, rfl⟩
    · rw [addAtomAt, if_neg hx] at h
      cases hxs : addAtomAt xs s a with
      | none => rw [hxs] at h; exact absurd h (by simp)
      | some xs' =>
        rw [hxs] at h
        simp only [Option.map] at h
        rw [Option.some_inj] at h
        subst h
        rcases List.mem_cons.mp hy' with rfl | hy'
        · exact ⟨y', List.mem_cons_self y' xs, rfl, rfl⟩
        · obtain ⟨y, hy, hty, hsy⟩ := ih hxs y' hy'
          exact ⟨y, List.mem_cons_of_mem x hy, hty, hsy⟩

theorem smirkEq_right_congr {x y y' : Smirk} (ht : y'.type = y.type)
    (hs : y'.smirks = y.smirks) : smirkEq x y' = smirkEq x y := by
  simp [smirkEq, ht, hs]

theorem addAtomAt_pairwise {s : Smirk} {a : List Nat} :
    ∀ {l l' : List Smirk}, l.Pairwise (fun x y => smirkEq x y = false) →
      addAtomAt l s a = some l' →
      l'.Pairwise (fun x y => smirkEq x y = false) := by
  intro l
  induction l with
  | nil => intro l' _ h; exact absurd h (by simp [addAtomAt])
  | cons x xs ih =>
    intro l' hpw h
    by_cases hx : smirkEq x s
    · rw [addAtomAt, if_pos hx, Option.some_inj] at h
      subst h
      rw [List.pairwise_cons] at hpw ⊢
      exact hpw
    · rw [addAtomAt, if_neg hx] at h
      cases hxs : addAtomAt xs s a with
      | none => rw [hxs] at h; exact absurd h (by simp)
      | some xs' =>
        rw [hxs] at h
        simp only [Option.map] at h
        rw [Option.some_inj] at h
        subst h
        rw [List.pairwise_cons] at hpw ⊢
        refine ⟨?_, ih hpw.2 hxs⟩
        intro y' hy'
        obtain ⟨y, hy, hty, hsy⟩ := addAtomAt_mem hxs y' hy'
        rw [smirkEq_right_congr hty hsy]
        exact hpw.1 y hy

theorem getSmirksLoop_nil (labels : Labels) (acc : List Smirk) :
    getSmirksLoop labels [] acc = .ok acc := rfl

theorem getSmirksLoop_cons_found {labels : Labels} {a : List Nat} {t : SmirksType}
    {r : ParamRecord} {acc acc' : List Smirk} {rest : List (List Nat)}
    (ht : arityToType a.length = some t) (hl : lookupLabel labels t a = some r)
    (hadd : addAtomAt acc (freshSmirk t r a) a = some acc') :
    getSmirksLoop labels (a :: rest) acc = getSmirksLoop labels rest acc' := by
  simp only [getSmirksLoop, ht, hl, hadd]

theorem getSmirksLoop_cons_new {labels : Labels} {a : List Nat} {t : SmirksType}
    {r : ParamRecord} {acc : List Smirk} {rest : List (List Nat)}
    (ht : arityToType a.length = some t) (hl : lookupLabel labels t a = some r)
    (hadd : addAtomAt acc (freshSmirk t r a) a = none) :
    getSmirksLoop labels (a :: rest) acc
      = getSmirksLoop labels rest (acc ++ [freshSmirk t r a]) := by
  simp only [getSmirksLoop, ht, hl, hadd]

theorem getSmirksLoop_pairwise {labels : Labels} :
    ∀ (tuples : List (List Nat)) (acc out : List Smirk),
      acc.Pairwise (fun x y => smirkEq x y = false) →
      getSmirksLoop labels tuples acc = .ok out →
      out.Pairwise (fun x y => smirkEq x y = false) := by
  intro tuples
  induction tuples with
  | nil =>
    intro acc out hpw h
    rw [getSmirksLoop_nil, Except.ok.injEq] at h
    exact h ▸ hpw
  | cons a rest ih =>
    intro acc out hpw h
    cases ht : arityToType a.length with
    | none =>
      rw [show getSmirksLoop labels (a :: rest) acc = .error .UnsupportedArity by
        simp only [getSmirksLoop, ht]] at h
      exact absurd h (by simp)
    | some t =>
      cases hl : lookupLabel labels t a with
      | none =>
        rw [show getSmirksLoop labels (a :: rest) acc = .error .KeyError by
          simp only [getSmirksLoop, ht, hl]] at h
        exact absurd h (by simp)
      | some r =>
        cases hadd : addAtomAt acc (freshSmirk t r a) a with
        | some acc' =>
          rw [getSmirksLoop_cons_found ht hl hadd] at h
          exact ih acc' out (addAtomAt_pairwise hpw hadd) h
        | none =>
          rw [getSmirksLoop_cons_new ht hl hadd] at h
          refine ih _ out ?_ h
          rw [List.pairwise_append]
          refine ⟨hpw, List.pairwise_singleton _ _, ?_⟩
          intro x hx y hy
          rw [List.mem_singleton.mp hy]
          exact (addAtomAt_none_iff acc _ a).mp hadd x hx

theorem freshSmirk_eq (t : SmirksType) (r : ParamRecord) (a : List Nat) :
    freshSmirk t r a = ⟨t, r.smirks, [a], r.values⟩ := rfl

theorem getSmirksLoop_single {labels : Labels} {t : SmirksType} {r : ParamRecord} :
    ∀ (tuples done : List (List Nat)),
      (∀ a ∈ tuples, arityToType a.length = some t ∧ lookupLabel labels t a = some r) →
      (∀ a ∈ tuples, ¬ a ∈ done) →
      tuples.Nodup →
      getSmirksLoop labels tuples [⟨t, r.smirks, done, r.values⟩]
        = .ok [⟨t, r.smirks, done ++ tuples, r.values⟩] := by
  intro tuples
  induction tuples with
  | nil => intro done _ _ _; rw [getSmirksLoop_nil, List.append_nil]
  | cons a rest ih =>
    intro done hres hfresh hnd
    obtain ⟨ht, hl⟩ := hres a (List.mem_cons_self a rest)
    have hadd : addAtomAt [(⟨t, r.smirks, done, r.values⟩ : Smirk)] (freshSmirk t r a) a
        = some [⟨t, r.smirks, addAtom done a, r.values⟩] := by
      rw [addAtomAt, if_pos (by simp [smirkEq, freshSmirk_eq])]
    rw [getSmirksLoop_cons_found ht hl hadd]
    have hda : addAtom done a = done ++ [a] := by
      rw [addAtom, if_neg (by simpa using hfresh a (List.mem_cons_self a rest))]
    rw [hda]
    have hfresh' : ∀ b ∈ rest, ¬ b ∈ done ++ [a] := by
      intro b hb hbmem
      rcases List.mem_append.mp hbmem with h | h
      · exact hfresh b (List.mem_cons_of_mem a hb) h
      · rw [List.mem_singleton.mp h] at hb
        exact (List.nodup_cons.mp hnd).1 hb
    rw [ih (done ++ [a]) (fun b hb => hres b (List.mem_cons_of_mem a hb)) hfresh'
      (List.nodup_cons.mp hnd).2, List.append_assoc]
    rfl

theorem keyTrace_nil (labels : Labels) (ks : List (SmirksType × String)) :
    keyTrace labels [] ks = some ks := rfl

theorem keyTrace_cons {labels : Labels} {a : List Nat} {k : SmirksType × String}
    (hk : tupleKey labels a = some k) (rest : List (List Nat))
    (ks : List (SmirksType × String)) :
    keyTrace labels (a :: rest) ks = keyTrace labels rest (insertKey ks k) := by
  simp only [keyTrace, hk]

theorem tupleKey_eq {labels : Labels} {a : List Nat} {t : SmirksType}
    {r : ParamRecord} (ht : arityToType a.length = some t)
    (hl : lookupLabel labels t a = some r) :
    tupleKey labels a = some (t, r.smirks) := by
  simp only [tupleKey, ht, hl]

theorem smirkEq_true_iff (x s : Smirk) :
    smirkEq x s = true ↔ keyOf x = keyOf s := by
  simp [smirkEq, keyOf, Prod.ext_iff]

theorem addAtomAt_some_exists {s : Smirk} {a : List Nat} {l l' : List Smirk}
    (h : addAtomAt l s a = some l') : ∃ x ∈ l, smirkEq x s = true := by
  by_contra hno
  have hall : ∀ x ∈ l, smirkEq x s = false := by
    intro x hx
    cases hb : smirkEq x s with
    | false => rfl
    | true => exact absurd ⟨x, hx, hb⟩ hno
  rw [(addAtomAt_none_iff l s a).mpr hall] at h
  exact Option.noConfusion h

theorem addAtomAt_keys {s : Smirk} {a : List Nat} :
    ∀ {l l' : List Smirk}, addAtomAt l s a = some l' →
      l'.map keyOf = l.map keyOf := by
  intro l
  induction l with
  | nil => intro l' h; exact absurd h (by simp [addAtomAt])
  | cons x xs ih =>
    intro l' h
    by_cases hx : smirkEq x s
    · rw [addAtomAt, if_pos hx, Option.some_inj] at h
      subst h
      rfl
    · rw [addAtomAt, if_neg hx] at h
      cases hxs : addAtomAt xs s a with
      | none => rw [hxs] at h; exact absurd h (by simp)
      | some xs' =>
        rw [hxs] at h
        simp only [Option.map] at h
        rw [Option.some_inj] at h
        subst h
        rw [List.map_cons, List.map_cons, ih hxs]

theorem getSmirksLoop_keyTrace {labels : Labels} :
    ∀ (tuples : List (List Nat)) (acc out : List Smirk),
      getSmirksLoop labels tuples acc = .ok out →
      keyTrace labels tuples (acc.map keyOf) = some (out.map keyOf) := by
  intro tuples
  induction tuples with
  | nil =>
    intro acc out h
    rw [getSmirksLoop_nil, Except.ok.injEq] at h
    rw [keyTrace_nil, h]
  | cons a rest ih =>
    intro acc out h
    cases ht : arityToType a.length with
    | none =>
      rw [show getSmirksLoop labels (a :: rest) acc = .error .UnsupportedArity by
        simp only [getSmirksLoop, ht]] at h
      exact absurd h (by simp)
    | some t =>
      cases hl : lookupLabel labels t a with
      | none =>
        rw [show getSmirksLoop labels (a :: rest) acc = .error .KeyError by
          simp only [getSmirksLoop, ht, hl]] at h
        exact absurd h (by simp)
      | some r =>
        rw [keyTrace_cons (tupleKey_eq ht hl)]
        cases hadd : addAtomAt acc (freshSmirk t r a) a with
        | some acc' =>
          rw [getSmirksLoop_cons_found ht hl hadd] at h
          have hmem : (t, r.smirks) ∈ acc.map keyOf := by
            obtain ⟨x, hx, hxe⟩ := addAtomAt_some_exists hadd
            have hk : keyOf x = keyOf (freshSmirk t r a) :=
              (smirkEq_true_iff x _).mp hxe
            exact List.mem_map.mpr ⟨x, hx, hk⟩
          rw [show insertKey (acc.map keyOf) (t, r.smirks) = acc.map keyOf by
            rw [insertKey, if_pos hmem]]
          rw [← addAtomAt_keys hadd]
          exact ih acc' out h
        | none =>
          rw [getSmirksLoop_cons_new ht hl hadd] at h
          have hnmem : ¬ (t, r.smirks) ∈ acc.map keyOf := by
            intro hmem
            obtain ⟨x, hx, hk⟩ := List.mem_map.mp hmem
            have hxe : smirkEq x (freshSmirk t r a) = true :=
              (smirkEq_true_iff x _).mpr hk
            rw [(addAtomAt_none_iff acc _ a).mp hadd x hx] at hxe
            exact Bool.noConfusion hxe
          rw [show insertKey (acc.map keyOf) (t, r.smirks)
              = (acc ++ [freshSmirk t r a]).map keyOf by
            rw [insertKey, if_neg hnmem, List.map_append]
            rfl]
          exact ih _ out h

/-! ## Claim theorems for the read/cluster/update operations -/

/-- C5 counterexample: the sequence [(0,), (0,)] has m = 2 atom tuples that
all resolve to the same governing record, yet the single returned parameter
carries an atoms set of 1 ≠ 2 elements, because the repeated tuple is
inserted into the set only once. -/
theorem get_smirks_parameters_dup_counterexample :
    get_smirks_parameters labelsW [[0], [0]]
        = .ok [⟨SmirksType.Vdw, "[#1:1]", [[0]], [("epsilon", 2)]⟩]
      ∧ ([[0], [0]] : List (List Nat)).length = 2
      ∧ ((⟨SmirksType.Vdw, "[#1:1]", [[0]], [("epsilon", 2)]⟩ : Smirk)).atoms.length
          = 1 :=
  ⟨rfl, rfl, rfl⟩

/-- C5 (amended): for m ≥ 1 pairwise-distinct atom tuples that all resolve
to the same governing record, `get_smirks_parameters` returns exactly one
typed parameter whose atoms set holds all m requested tuples; in general
the output list is deduplicated under smirks-parameter equality and
preserves first-encounter order: its (type, smirks) keys are exactly the
tuples' resolved keys, first occurrences kept, in encounter order. -/
theorem get_smirks_parameters_cluster (labels : Labels) (t : SmirksType)
    (r : ParamRecord) (tuples : List (List Nat))
    (hres : ∀ a ∈ tuples, arityToType a.length = some t
      ∧ lookupLabel labels t a = some r)
    (hnd : tuples.Nodup) (hne : tuples ≠ []) :
    (get_smirks_parameters labels tuples
        = .ok [⟨t, r.smirks, tuples, r.values⟩]
      ∧ ((⟨t, r.smirks, tuples, r.values⟩ : Smirk)).atoms.length = tuples.length)
      ∧ ∀ (atoms' : List (List Nat)) (out : List Smirk),
          get_smirks_parameters labels atoms' = .ok out →
          out.Pairwise (fun x y => smirkEq x y = false)
            ∧ keyTrace labels atoms' [] = some (out.map keyOf) := by
  refine ⟨⟨?_, rfl⟩, fun atoms' out h =>
    ⟨getSmirksLoop_pairwise atoms' [] out List.Pairwise.nil h,
     getSmirksLoop_keyTrace atoms' [] out h⟩⟩
  cases tuples with
  | nil => exact absurd rfl hne
  | cons a rest =>
    obtain ⟨ht, hl⟩ := hres a (List.mem_cons_self a rest)
    unfold get_smirks_parameters
    have hadd : addAtomAt [] (freshSmirk t r a) a = none := rfl
    rw [getSmirksLoop_cons_new ht hl hadd, List.nil_append, freshSmirk_eq]
    have h1 : ([a] : List (List Nat)) = [] ++ [a] := rfl
    rw [show ([(⟨t, r.smirks, [a], r.values⟩ : Smirk)] : List Smirk)
        = [⟨t, r.smirks, [] ++ [a], r.values⟩] from rfl]
    rw [getSmirksLoop_single rest ([] ++ [a])
      (fun b hb => hres b (List.mem_cons_of_mem a hb))
      (fun b hb hmem => by
        rw [List.nil_append, List.mem_singleton] at hmem
        rw [hmem] at hb
        exact (List.nodup_cons.mp hnd).1 hb)
      (List.nodup_cons.mp hnd).2]
    rfl

/-- Witness for C5 (amended) at a concrete input: the two distinct vdW
tuples (0,) and (1,), both governed by the same record, cluster onto one
parameter carrying both tuples, and the general dedup/first-encounter-order
conjunct holds for this labelling. -/
theorem get_smirks_parameters_cluster_witness :
    (get_smirks_parameters labelsW2 [[0], [1]]
        = .ok [⟨SmirksType.Vdw, rVdw.smirks, [[0], [1]], rVdw.values⟩]
      ∧ ((⟨SmirksType.Vdw, rVdw.smirks, [[0], [1]], rVdw.values⟩ : Smirk)).atoms.length
          = ([[0], [1]] : List (List Nat)).length)
      ∧ ∀ (atoms' : List (List Nat)) (out : List Smirk),
          get_smirks_parameters labelsW2 atoms' = .ok out →
          out.Pairwise (fun x y => smirkEq x y = false)
            ∧ keyTrace labelsW2 atoms' [] = some (out.map keyOf) :=
  get_smirks_parameters_cluster labelsW2 SmirksType.Vdw rVdw [[0], [1]]
    (by decide) (by decide) (by decide)

/-- C6: `get_initial_parameters` resolves every atom tuple of the smirk via
the label mapping for its type; if the resolved governing-record identifiers
hold two or more distinct values it fails with the ambiguity assertion, and
with exactly one it updates the smirk's value fields from the (first)
resolved record — clearing existing values first when `clear_existing` is
true — and returns that updated parameter. -/
theorem get_initial_parameters_spec (labels : Labels) (smirk : Smirk)
    (clear_existing : Bool) (ps : List ParamRecord)
    (hres : resolveAtoms labels smirk.type smirk.atoms = .ok ps) :
    (2 ≤ (distinctIds ps).length →
        get_initial_parameters labels smirk clear_existing
          = .error .AmbiguousClusterError)
      ∧ ((distinctIds ps).length = 1 →
          ∃ p rest, ps = p :: rest
            ∧ get_initial_parameters labels smirk clear_existing
                = .ok (update_parameters smirk p clear_existing)) := by
  constructor
  · intro h2
    unfold get_initial_parameters
    simp only [hres]
    cases ps with
    | nil => simp [distinctIds] at h2
    | cons p rest =>
      cases hd : distinctIds (p :: rest) with
      | nil => rfl
      | cons i is =>
        cases is with
        | nil => rw [hd] at h2; simp at h2
        | cons j js => rfl
  · intro h1
    unfold get_initial_parameters
    simp only [hres]
    cases ps with
    | nil => simp [distinctIds] at h1
    | cons p rest =>
      cases hd : distinctIds (p :: rest) with
      | nil => rw [hd] at h1; simp at h1
      | cons i is =>
        cases is with
        | nil => exact ⟨p, rest, rfl, rfl⟩
        | cons j js => rw [hd] at h1; simp at h1

/-- Witness for C6 at a concrete input: a smirk spanning the tuples (0,)
and (1,), both resolving to the single record `rVdw`, is updated from that
record. -/
theorem get_initial_parameters_spec_witness :
    ∃ p rest, ([rVdw, rVdw] : List ParamRecord) = p :: rest
      ∧ get_initial_parameters labelsW2 smirkW true
          = .ok (update_parameters smirkW p true) :=
  (get_initial_parameters_spec labelsW2 smirkW true [rVdw, rVdw] rfl).2
    (by decide)

/-- C10: with an empty atoms set, `get_initial_parameters` always fails with
the ambiguity assertion: the set of resolved governing-record identifiers is
empty, and the exactly-one check rejects size zero just as it rejects sizes
above one. -/
theorem get_initial_parameters_empty_atoms (labels : Labels) (smirk : Smirk)
    (clear_existing : Bool) (h : smirk.atoms = []) :
    get_initial_parameters labels smirk clear_existing
      = .error .AmbiguousClusterError := by
  unfold get_initial_parameters
  rw [h]
  rfl

/-- Witness for C10 at a concrete input: a vdW smirk with no atom tuples is
rejected even though no genuine ambiguity exists. -/
theorem get_initial_parameters_empty_atoms_witness :
    get_initial_parameters labelsW2
        ⟨SmirksType.Vdw, "[#1:1]", [], [("epsilon", 9)]⟩ true
      = .error .AmbiguousClusterError :=
  get_initial_parameters_empty_atoms labelsW2
    ⟨SmirksType.Vdw, "[#1:1]", [], [("epsilon", 9)]⟩ true rfl

theorem update_smirks_nil (ff : ForceFieldState) :
    update_smirks_parameters ff [] = ([], none) := rfl

theorem update_smirks_cons_found {ff : ForceFieldState} {s : Smirk}
    {rest : List Smirk} {r : ParamRecord}
    (hr : findRec (getHandler ff s.type) s.smirks = some r) :
    update_smirks_parameters ff (s :: rest)
      = (update_parameters s r true :: (update_smirks_parameters ff rest).1,
         (update_smirks_parameters ff rest).2) := by
  simp only [update_smirks_parameters]
  rw [hr]

theorem update_smirks_cons_missing {ff : ForceFieldState} {s : Smirk}
    {rest : List Smirk}
    (hr : findRec (getHandler ff s.type) s.smirks = none) :
    update_smirks_parameters ff (s :: rest) = (s :: rest, some .NotFound) := by
  simp only [update_smirks_parameters]
  rw [hr]

/-- C7: `update_smirks_parameters` walks the inputs in order; when every
input's (type, smirks) key is present it overwrites each input's value
fields from the handle's current record, leaving atoms, type and smirks
untouched; and as soon as an input's key is absent it stops with `NotFound`,
the earlier inputs updated and the rest untouched. -/
theorem update_smirks_parameters_spec (ff : ForceFieldState) (smirks : List Smirk) :
    ((∀ s ∈ smirks, ∃ r, findRec (getHandler ff s.type) s.smirks = some r) →
        update_smirks_parameters ff smirks = (smirks.map (updOne ff), none)
          ∧ List.Forall₂ (fun s s' => s'.atoms = s.atoms ∧ s'.type = s.type
              ∧ s'.smirks = s.smirks
              ∧ ∃ r, findRec (getHandler ff s.type) s.smirks = some r
                  ∧ s'.values = r.values)
            smirks (smirks.map (updOne ff)))
      ∧ ∀ pre s post, smirks = pre ++ s :: post →
          (∀ q ∈ pre, ∃ r, findRec (getHandler ff q.type) q.smirks = some r) →
          findRec (getHandler ff s.type) s.smirks = none →
          update_smirks_parameters ff smirks
            = (pre.map (updOne ff) ++ s :: post, some .NotFound) := by
  constructor
  · intro hall
    induction smirks with
    | nil => exact ⟨rfl, List.Forall₂.nil⟩
    | cons s rest ih =>
      obtain ⟨r, hr⟩ := hall s (List.mem_cons_self s rest)
      obtain ⟨ih1, ih2⟩ := ih (fun q hq => hall q (List.mem_cons_of_mem s hq))
      have hupd : updOne ff s = update_parameters s r true := by
        rw [updOne, hr]
      constructor
      · rw [update_smirks_cons_found hr, ih1, List.map_cons, hupd]
      · rw [List.map_cons]
        refine List.Forall₂.cons ?_ ih2
        rw [hupd]
        exact ⟨rfl, rfl, rfl, r, hr, rfl⟩
  · intro pre
    induction pre generalizing smirks with
    | nil =>
      intro s post hsm _ hnone
      subst hsm
      rw [List.nil_append, update_smirks_cons_missing hnone]
      rfl
    | cons q pre' ih =>
      intro s post hsm hpre hnone
      subst hsm
      obtain ⟨r, hr⟩ := hpre q (List.mem_cons_self q pre')
      have hupd : updOne ff q = update_parameters q r true := by
        rw [updOne, hr]
      rw [List.cons_append, update_smirks_cons_found hr,
        ih (pre' ++ s :: post) s post rfl
          (fun x hx => hpre x (List.mem_cons_of_mem q hx)) hnone,
        List.map_cons, hupd, List.cons_append]

/-- Witness for C7 at a concrete input: submitting the unknown bond pattern
"[#7:1]-[#6:2]" against a handler that only holds "[#6:1]" stops
immediately with `NotFound`, leaving the input untouched. -/
theorem update_smirks_parameters_spec_witness :
    update_smirks_parameters ffOneBond [smirkNC]
      = (List.map (updOne ffOneBond) [] ++ smirkNC :: [], some FFError.NotFound) :=
  (update_smirks_parameters_spec ffOneBond [smirkNC]).2 [] smirkNC [] rfl
    (fun q hq => absurd hq (List.not_mem_nil q)) rfl

/-- C8: `get_result_geometries` fails when `result` is unset, and with `n`
result records returns exactly `n` unit-tagged geometry values, one per
record in order, each the record's raw geometry tagged with the fixed bohr
length unit; the stage itself is not mutated (the operation is a pure
read). -/
theorem get_result_geometries_spec (stage : WorkflowStage) :
    (stage.result = none →
        get_result_geometries stage = .error "TypeError: NoneType is not iterable")
      ∧ ∀ rs, stage.result = some rs →
          get_result_geometries stage
              = .ok (rs.map (fun r =>
                  { value := r.molecule.geometry, unitTag := .bohr }))
            ∧ (rs.map (fun r =>
                ({ value := r.molecule.geometry, unitTag := .bohr } : Quantity))).length
              = rs.length := by
  constructor
  · intro h
    rw [get_result_geometries, h]
  · intro rs h
    rw [get_result_geometries, h]
    exact ⟨rfl, by rw [List.length_map]⟩

/-- Witness for C8 at concrete inputs: a fresh Hessian stage (result unset)
fails, and after setting one result record the output is one bohr-tagged
geometry equal to the source values. -/
theorem get_result_geometries_spec_witness :
    get_result_geometries stage0 = .error "TypeError: NoneType is not iterable"
      ∧ (get_result_geometries stageW
            = .ok [{ value := [1, 2, 3], unitTag := .bohr }]
          ∧ ([({ value := [1, 2, 3], unitTag := .bohr } : Quantity)]).length = 1) :=
  ⟨(get_result_geometries_spec stage0).1 rfl,
    (get_result_geometries_spec stageW).2 [{ molecule := { geometry := [1, 2, 3] } }] rfl⟩

/-- C9: the integer retry counter of a newly constructed `WorkflowStage`
starts at 0 — though the source declares the field under the misspelled
name `retires`, not `retries`. -/
theorem workflowStage_retires_zero (m : CollectionMethod) :
    ({ method := m } : WorkflowStage).retires = 0 := rfl

end BespokeFit
